import Mathlib

/-!
Shallow embedding of the pattern-matching core of go-mate/go-commit.

Source functions embedded here:
- `MatchRemotePattern`, `matchGlob`, `matchGlobRecursive`, `countNonWildcardChars`
  from the `utils` package (pattern matching and scoring).
- `MatchSignature` with its `SignatureConfig` / `CommitConfig` data model
  from the `commitmate` package (best-signature resolution).

Go strings iterated with `range` and converted with `[]rune` operate on Unicode
codepoints, so Go strings are embedded as Lean `String` and rune slices as
`List Char`.
-/

namespace GoCommit

/-- Embeds `utils.matchGlobRecursive`: recursively matches `remoteURL` against
`pattern`, where a `*` in the pattern tries consuming 0 to N characters
(the Go loop `for i := 0; i <= len(remoteURL); i++`). -/
def matchGlobRecursive : List Char → List Char → Bool
  | remoteURL, [] => remoteURL.isEmpty
  | remoteURL, c :: ps =>
    if c = '*' then
      (List.range (remoteURL.length + 1)).any fun i =>
        matchGlobRecursive (remoteURL.drop i) ps
    else
      match remoteURL with
      | [] => false
      | u :: us => if u = c then matchGlobRecursive us ps else false

/-- Embeds `utils.matchGlob`: fast path on exact equality, fast rejection for
wildcard-free patterns, recursion otherwise (`[]rune` = codepoint list). -/
def matchGlob (remoteURL pattern : String) : Bool :=
  if remoteURL = pattern then
    true
  else if !(pattern.toList.contains '*') then
    false
  else
    matchGlobRecursive remoteURL.toList pattern.toList

/-- Embeds `utils.countNonWildcardChars`: counts the codepoints of the pattern
that are not the wildcard character. Go `int` is embedded as `Int`. -/
def countNonWildcardChars (pattern : String) : Int :=
  pattern.toList.foldl (fun count char => if char ≠ '*' then count + 1 else count) 0

/-- Embeds `utils.MatchRemotePattern`: `-1` when the glob match fails,
otherwise the non-wildcard character count of the pattern. -/
def MatchRemotePattern (pattern remoteURL : String) : Int :=
  if !matchGlob remoteURL pattern then
    -1
  else
    countNonWildcardChars pattern

/-- Embeds `commitmate.SignatureConfig` (JSON-decoded fields). -/
structure SignatureConfig where
  name : String
  username : String
  mailbox : String
  eddress : String
  remotePatterns : List String
deriving DecidableEq

/-- Embeds `commitmate.CommitConfig`. -/
structure CommitConfig where
  signatures : List SignatureConfig
deriving DecidableEq

/-- Embeds `(*CommitConfig).MatchSignature`: scans every pattern of every
signature in order, keeping the candidate only on a strictly greater score
(`score > bestMatchScore`, running best initialised to `none, -1`). -/
def MatchSignature (config : CommitConfig) (remoteURL : String) : Option SignatureConfig :=
  (config.signatures.foldl
    (fun best signature =>
      signature.remotePatterns.foldl
        (fun best pattern =>
          let score := MatchRemotePattern pattern remoteURL
          if score > best.2 then (some signature, score) else best)
        best)
    (none, -1)).1

/-- Whole-string glob acceptance, written from the specification's words:
`*` matches any sequence of characters including the empty sequence, every
other character must match exactly, and the pattern must consume the whole
URL. The first list is the pattern, the second the URL. -/
inductive GlobAccepts : List Char → List Char → Prop
  | nil : GlobAccepts [] []
  | lit {c : Char} {ps us : List Char} (hc : c ≠ '*') :
      GlobAccepts ps us → GlobAccepts (c :: ps) (c :: us)
  | star (pre : List Char) {ps us : List Char} :
      GlobAccepts ps us → GlobAccepts ('*' :: ps) (pre ++ us)

/-- Unfolding: the matcher on an empty pattern checks the URL is exhausted. -/
lemma matchGlobRecursive_nil (u : List Char) :
    matchGlobRecursive u [] = u.isEmpty := by
  simp [matchGlobRecursive]

/-- Unfolding: a leading wildcard tries every split point of the URL. -/
lemma matchGlobRecursive_star (u ps : List Char) :
    matchGlobRecursive u ('*' :: ps) =
      (List.range (u.length + 1)).any fun i => matchGlobRecursive (u.drop i) ps := by
  simp [matchGlobRecursive]

/-- Unfolding: a pending literal character fails on an exhausted URL. -/
lemma matchGlobRecursive_lit_nil {c : Char} (ps : List Char) (hc : c ≠ '*') :
    matchGlobRecursive [] (c :: ps) = false := by
  simp [matchGlobRecursive, hc]

/-- Unfolding: a literal character must equal the URL's head. -/
lemma matchGlobRecursive_lit_cons {c : Char} (x : Char) (us ps : List Char) (hc : c ≠ '*') :
    matchGlobRecursive (x :: us) (c :: ps) =
      if x = c then matchGlobRecursive us ps else false := by
  simp [matchGlobRecursive, hc]

/-- Every string glob-accepts itself: literal characters match themselves and
a literal wildcard character is absorbed by the wildcard rule. -/
lemma GlobAccepts.self : ∀ l : List Char, GlobAccepts l l
  | [] => .nil
  | c :: cs => by
    by_cases hc : c = '*'
    · subst hc
      exact GlobAccepts.star ['*'] (GlobAccepts.self cs)
    · exact GlobAccepts.lit hc (GlobAccepts.self cs)

/-- Inversion: only the empty URL is accepted by the empty pattern. -/
lemma GlobAccepts.nil_inv {us : List Char} (h : GlobAccepts [] us) : us = [] := by
  cases h
  rfl

/-- Inversion: a pattern led by a literal character forces that character at
the head of the URL. -/
lemma GlobAccepts.lit_inv {c : Char} {ps us : List Char} (hc : c ≠ '*')
    (h : GlobAccepts (c :: ps) us) :
    ∃ rest, us = c :: rest ∧ GlobAccepts ps rest := by
  cases h with
  | lit _ hrest => exact ⟨_, rfl, hrest⟩
  | star pre hrest => exact absurd rfl hc

/-- Inversion: a pattern led by a wildcard splits the URL. -/
lemma GlobAccepts.star_inv {ps us : List Char} (h : GlobAccepts ('*' :: ps) us) :
    ∃ pre rest, us = pre ++ rest ∧ GlobAccepts ps rest := by
  cases h with
  | lit hb hrest => exact absurd rfl hb
  | star pre hrest => exact ⟨pre, _, rfl, hrest⟩

/-- A wildcard-free pattern glob-accepts only the string equal to it. -/
lemma GlobAccepts.eq_of_no_star {p u : List Char} (h : GlobAccepts p u)
    (hp : '*' ∉ p) : p = u := by
  induction h with
  | nil => rfl
  | lit hc _ ih =>
    simp only [List.mem_cons, not_or] at hp
    rw [ih hp.2]
  | star pre _ _ => simp at hp

/-- The recursive matcher agrees with the specification's glob semantics. -/
lemma matchGlobRecursive_iff_globAccepts :
    ∀ (p u : List Char), matchGlobRecursive u p = true ↔ GlobAccepts p u := by
  intro p
  induction p with
  | nil =>
    intro u
    rw [matchGlobRecursive_nil, List.isEmpty_iff]
    constructor
    · rintro rfl
      exact .nil
    · exact GlobAccepts.nil_inv
  | cons c ps ih =>
    intro u
    by_cases hc : c = '*'
    · subst hc
      rw [matchGlobRecursive_star, List.any_eq_true]
      constructor
      · rintro ⟨i, -, hrec⟩
        have h := GlobAccepts.star (u.take i) ((ih (u.drop i)).1 hrec)
        rwa [List.take_append_drop] at h
      · intro h
        obtain ⟨pre, rest, hsplit, hrest⟩ := GlobAccepts.star_inv h
        refine ⟨pre.length, List.mem_range.2 ?_, (ih rest).2 hrest ▸ ?_⟩
        · simp [hsplit, Nat.lt_succ_iff]
        · rw [hsplit, List.drop_left]
    · cases u with
      | nil =>
        rw [matchGlobRecursive_lit_nil ps hc]
        simp only [Bool.false_eq_true, false_iff]
        intro h
        obtain ⟨rest, hsplit, -⟩ := GlobAccepts.lit_inv hc h
        exact List.noConfusion hsplit
      | cons x us =>
        rw [matchGlobRecursive_lit_cons x us ps hc]
        constructor
        · intro h
          by_cases hx : x = c
          · rw [if_pos hx] at h
            subst hx
            exact GlobAccepts.lit hc ((ih us).1 h)
          · rw [if_neg hx] at h
            exact absurd h (by simp)
        · intro h
          obtain ⟨rest, hsplit, hrest⟩ := GlobAccepts.lit_inv hc h
          injection hsplit with h1 h2
          subst h1
          subst h2
          rw [if_pos rfl]
          exact (ih _).2 hrest

/-- The `matchGlob` entry point (with its fast paths) also agrees with the
specification's glob semantics. -/
lemma matchGlob_iff_globAccepts (remoteURL pattern : String) :
    matchGlob remoteURL pattern = true ↔ GlobAccepts pattern.toList remoteURL.toList := by
  unfold matchGlob
  by_cases heq : remoteURL = pattern
  · subst heq
    simp only [eq_self_iff_true, if_true, true_iff]
    exact GlobAccepts.self _
  · rw [if_neg heq]
    by_cases hstar : pattern.toList.contains '*'
    · simp only [hstar, Bool.not_true, Bool.false_eq_true, if_false]
      exact matchGlobRecursive_iff_globAccepts _ _
    · simp only [hstar, Bool.not_false, if_true, Bool.false_eq_true, false_iff]
      intro h
      have hmem : '*' ∉ pattern.toList := by
        simpa using hstar
      have hpu : pattern.toList = remoteURL.toList := GlobAccepts.eq_of_no_star h hmem
      exact heq (congrArg String.mk hpu).symm

/-- Specification-side count: the number of characters of a codepoint list
that are not the wildcard character, one per non-wildcard character. -/
def nonStarCount : List Char → Int
  | [] => 0
  | c :: cs => (if c ≠ '*' then 1 else 0) + nonStarCount cs

/-- The non-wildcard count is non-negative. -/
lemma nonStarCount_nonneg : ∀ l : List Char, 0 ≤ nonStarCount l
  | [] => le_refl 0
  | c :: cs => by
    simp only [nonStarCount]
    have := nonStarCount_nonneg cs
    split <;> omega

/-- The counting fold equals an offset plus the non-wildcard count of the
remaining list. -/
lemma count_foldl_eq (l : List Char) : ∀ n : Int,
    l.foldl (fun count char => if char ≠ '*' then count + 1 else count) n =
      n + nonStarCount l := by
  induction l with
  | nil =>
    intro n
    simp only [List.foldl_nil, nonStarCount]
    ring
  | cons c cs ih =>
    intro n
    simp only [List.foldl_cons, nonStarCount]
    by_cases hc : c = '*'
    · have hnc : ¬(c ≠ '*') := not_not_intro hc
      simp only [if_neg hnc]
      rw [ih n]
      ring
    · simp only [if_pos hc]
      rw [ih (n + 1)]
      ring

/-- The source's score function computes the non-wildcard count. -/
lemma countNonWildcardChars_eq (pattern : String) :
    countNonWildcardChars pattern = nonStarCount pattern.toList := by
  unfold countNonWildcardChars
  rw [count_foldl_eq]
  ring

/-- The score of any pattern is non-negative. -/
lemma countNonWildcardChars_nonneg (pattern : String) :
    0 ≤ countNonWildcardChars pattern := by
  rw [countNonWildcardChars_eq]
  exact nonStarCount_nonneg _

/-- A wildcard-free list's non-wildcard count is its length. -/
lemma nonStarCount_of_no_star : ∀ l : List Char, '*' ∉ l → nonStarCount l = (l.length : Int)
  | [], _ => rfl
  | c :: cs, h => by
    simp only [List.mem_cons, not_or] at h
    simp only [nonStarCount, List.length_cons]
    rw [if_pos fun he => h.1 he.symm, nonStarCount_of_no_star cs h.2]
    push_cast
    ring

/-- The non-wildcard count adds over concatenation. -/
lemma nonStarCount_append : ∀ l1 l2 : List Char,
    nonStarCount (l1 ++ l2) = nonStarCount l1 + nonStarCount l2
  | [], l2 => by
    simp only [List.nil_append, nonStarCount]
    ring
  | c :: cs, l2 => by
    simp only [List.cons_append, nonStarCount, List.append_eq]
    rw [nonStarCount_append cs l2]
    ring

/-- A list holding at least one non-wildcard character counts at least one. -/
lemma nonStarCount_pos {l : List Char} {c : Char} (hc : c ∈ l) (hne : c ≠ '*') :
    1 ≤ nonStarCount l := by
  induction l with
  | nil => cases hc
  | cons x xs ih =>
    rcases List.mem_cons.1 hc with rfl | hmem
    · simp only [nonStarCount, if_pos hne]
      have := nonStarCount_nonneg xs
      omega
    · have h1 := ih hmem
      simp only [nonStarCount]
      have h2 : (0 : Int) ≤ if x ≠ '*' then 1 else 0 := by split <;> omega
      omega

/-- The match score is an if-expression over the glob decision. -/
lemma matchRemotePattern_eq_ite (pattern remoteURL : String) :
    MatchRemotePattern pattern remoteURL =
      if matchGlob remoteURL pattern then countNonWildcardChars pattern else -1 := by
  unfold MatchRemotePattern
  cases matchGlob remoteURL pattern <;> simp

/-- The score is never below `-1`. -/
lemma neg_one_le_matchRemotePattern (pattern remoteURL : String) :
    -1 ≤ MatchRemotePattern pattern remoteURL := by
  rw [matchRemotePattern_eq_ite]
  split
  · linarith [countNonWildcardChars_nonneg pattern]
  · exact le_refl _

/-- C1: `Match(P, U)` returns `countNonWildcardChars(P)` exactly when `P`
accepts `U` under whole-string glob semantics and `-1` otherwise, and the
score is the count of non-wildcard codepoints of `P` alone, independent
of `U`. -/
theorem matchRemotePattern_glob_spec (P U : String) :
    (MatchRemotePattern P U = countNonWildcardChars P ↔ GlobAccepts P.toList U.toList) ∧
    (MatchRemotePattern P U = -1 ↔ ¬ GlobAccepts P.toList U.toList) ∧
    countNonWildcardChars P = nonStarCount P.toList := by
  have hcount : countNonWildcardChars P ≠ -1 := by
    intro h
    have := countNonWildcardChars_nonneg P
    omega
  have hg := matchGlob_iff_globAccepts U P
  rw [matchRemotePattern_eq_ite]
  cases hmg : matchGlob U P with
  | true =>
    have hacc : GlobAccepts P.toList U.toList := hg.1 hmg
    refine ⟨iff_of_true (if_pos rfl) hacc,
      iff_of_false (fun h => hcount (((if_pos rfl).symm.trans h))) (not_not_intro hacc),
      countNonWildcardChars_eq P⟩
  | false =>
    have hacc : ¬ GlobAccepts P.toList U.toList := fun h =>
      Bool.noConfusion ((hg.2 h).symm.trans hmg)
    have hF : ¬((false : Bool) = true) := Bool.false_ne_true
    refine ⟨iff_of_false (fun h => hcount (((if_neg hF).symm.trans h).symm)) hacc,
      iff_of_true (if_neg hF) hacc,
      countNonWildcardChars_eq P⟩

/-- A successful match (score not `-1`) scores the pattern's count. -/
lemma matchRemotePattern_eq_count_of_ne {pattern remoteURL : String}
    (h : MatchRemotePattern pattern remoteURL ≠ -1) :
    MatchRemotePattern pattern remoteURL = countNonWildcardChars pattern := by
  rw [matchRemotePattern_eq_ite] at h ⊢
  cases hmg : matchGlob remoteURL pattern
  · rw [hmg] at h
    simp at h
  · simp

/-- Any string glob-matches itself through the exact-equality fast path. -/
lemma matchGlob_self (U : String) : matchGlob U U = true := by
  unfold matchGlob
  rw [if_pos rfl]

/-- C4: concrete specificity scores for the URL `git@github.com:user/repo.git`:
the scores strictly decrease as the patterns generalize, `*@*.com:*` scores 6,
and the gitlab pattern does not match. -/
theorem matchRemotePattern_concrete_scores :
    MatchRemotePattern "git@github.com:user/repo.git" "git@github.com:user/repo.git" = 28 ∧
    MatchRemotePattern "git@github.com:user/*" "git@github.com:user/repo.git" = 20 ∧
    MatchRemotePattern "git@github.com:*" "git@github.com:user/repo.git" = 15 ∧
    MatchRemotePattern "git@*.com:*" "git@github.com:user/repo.git" = 9 ∧
    MatchRemotePattern "git@*:*" "git@github.com:user/repo.git" = 5 ∧
    MatchRemotePattern "*" "git@github.com:user/repo.git" = 0 ∧
    MatchRemotePattern "*@*.com:*" "git@github.com:user/repo.git" = 6 ∧
    MatchRemotePattern "git@gitlab.com:*" "git@github.com:user/repo.git" = -1 := by
  refine ⟨by decide, by decide, by decide, by decide, by decide, by decide, by decide, by decide⟩

/-- C5: every string matches itself; a wildcard-free string scores its full
codepoint length, and a string holding a wildcard still matches through the
exact-equality fast path with a non-negative score. -/
theorem matchRemotePattern_self (U : String) :
    ('*' ∉ U.toList → MatchRemotePattern U U = (U.length : Int)) ∧
    0 ≤ MatchRemotePattern U U := by
  have hm : MatchRemotePattern U U = countNonWildcardChars U := by
    rw [matchRemotePattern_eq_ite, matchGlob_self]
    simp
  constructor
  · intro hstar
    rw [hm, countNonWildcardChars_eq, nonStarCount_of_no_star _ hstar]
    rfl
  · rw [hm]
    exact countNonWildcardChars_nonneg U

theorem matchRemotePattern_self_witness :
    MatchRemotePattern "git@host" "git@host" = 8 ∧ 0 ≤ MatchRemotePattern "a*b" "a*b" := by
  constructor
  · have h := (matchRemotePattern_self "git@host").1 (by decide)
    exact h
  · exact (matchRemotePattern_self "a*b").2

/-- C6: the single-wildcard pattern matches every URL, including the empty
one, with score `0`. -/
theorem matchRemotePattern_star (U : String) : MatchRemotePattern "*" U = 0 := by
  have hacc : GlobAccepts "*".toList U.toList := by
    have h := GlobAccepts.star U.toList GlobAccepts.nil
    simpa using h
  have hglob : matchGlob U "*" = true := (matchGlob_iff_globAccepts U "*").2 hacc
  rw [matchRemotePattern_eq_ite, hglob]
  simp [countNonWildcardChars, nonStarCount]

/-- C8: the empty pattern matches only the empty URL. -/
theorem matchRemotePattern_empty_pattern :
    MatchRemotePattern "" "" = 0 ∧ ∀ U : String, U ≠ "" → MatchRemotePattern "" U = -1 := by
  refine ⟨by decide, fun U hU => ?_⟩
  have hglob : matchGlob U "" = false := by
    unfold matchGlob
    rw [if_neg hU]
    rfl
  rw [matchRemotePattern_eq_ite, hglob]
  simp

theorem matchRemotePattern_empty_pattern_witness :
    MatchRemotePattern "" "x" = -1 :=
  matchRemotePattern_empty_pattern.2 "x" (by decide)

/-- C3: replacing one wildcard of a pattern by a literal substring that adds
at least one non-wildcard character strictly raises the score whenever both
patterns match the URL. -/
theorem matchRemotePattern_more_specific (A L B : List Char) (U : String)
    (hL : ∃ c ∈ L, c ≠ '*')
    (h1 : MatchRemotePattern (String.mk (A ++ L ++ B)) U ≠ -1)
    (h2 : MatchRemotePattern (String.mk (A ++ '*' :: B)) U ≠ -1) :
    MatchRemotePattern (String.mk (A ++ '*' :: B)) U
      < MatchRemotePattern (String.mk (A ++ L ++ B)) U := by
  obtain ⟨c, hcL, hcne⟩ := hL
  rw [matchRemotePattern_eq_count_of_ne h1, matchRemotePattern_eq_count_of_ne h2]
  rw [countNonWildcardChars_eq, countNonWildcardChars_eq]
  show nonStarCount (A ++ '*' :: B) < nonStarCount (A ++ L ++ B)
  have hpos := nonStarCount_pos hcL hcne
  have h0 : nonStarCount ['*'] = 0 := by simp [nonStarCount]
  rw [show ('*' :: B) = ['*'] ++ B from rfl]
  simp only [nonStarCount_append, h0]
  omega

theorem matchRemotePattern_more_specific_witness :
    MatchRemotePattern (String.mk ("git@".toList ++ '*' :: ".com:*".toList)) "git@github.com:u"
      < MatchRemotePattern
          (String.mk ("git@".toList ++ "github".toList ++ ".com:*".toList)) "git@github.com:u" :=
  matchRemotePattern_more_specific "git@".toList "github".toList ".com:*".toList
    "git@github.com:u" ⟨'g', by decide, by decide⟩ (by decide) (by decide)

/-- Codepoint count never exceeds the UTF-8 byte count. -/
lemma length_le_utf8Len : ∀ l : List Char, l.length ≤ String.utf8Len l
  | [] => le_refl 0
  | x :: xs => by
    have h1 := length_le_utf8Len xs
    have h2 := Char.utf8Size_pos x
    simp only [List.length_cons, String.utf8Len_cons]
    omega

/-- With a multi-byte character present, the byte count strictly exceeds the
codepoint count. -/
lemma length_lt_utf8Len {l : List Char} {c : Char} (hc : c ∈ l) (hsize : 1 < c.utf8Size) :
    l.length < String.utf8Len l := by
  induction l with
  | nil => cases hc
  | cons x xs ih =>
    rcases List.mem_cons.1 hc with rfl | hmem
    · have h1 : xs.length ≤ String.utf8Len xs := length_le_utf8Len xs
      simp only [List.length_cons, String.utf8Len_cons]
      omega
    · have h1 := ih hmem
      have h2 := Char.utf8Size_pos x
      simp only [List.length_cons, String.utf8Len_cons]
      omega

/-- C9: the matcher and the score operate on Unicode codepoints, not bytes:
a wildcard-free pattern with a multi-byte character matching its own URL
scores its codepoint count, strictly below its UTF-8 byte length. -/
theorem matchRemotePattern_codepoints (P : String)
    (hstar : '*' ∉ P.toList) (hmb : ∃ c ∈ P.toList, 1 < c.utf8Size) :
    MatchRemotePattern P P = (P.toList.length : Int) ∧
    P.toList.length < P.utf8ByteSize := by
  obtain ⟨c, hcP, hcsize⟩ := hmb
  constructor
  · have hm : MatchRemotePattern P P = countNonWildcardChars P := by
      rw [matchRemotePattern_eq_ite, matchGlob_self]
      simp
    rw [hm, countNonWildcardChars_eq, nonStarCount_of_no_star _ hstar]
  · exact length_lt_utf8Len hcP hcsize

theorem matchRemotePattern_codepoints_witness :
    MatchRemotePattern "héllo" "héllo" = ("héllo".toList.length : Int) ∧
    "héllo".toList.length < "héllo".utf8ByteSize :=
  matchRemotePattern_codepoints "héllo" (by decide) ⟨'é', by decide, by decide⟩

/-- Specification-side best score over one signature's pattern list. -/
def bestPatternScore (remoteURL : String) : List String → Int
  | [] => -1
  | p :: ps => max (MatchRemotePattern p remoteURL) (bestPatternScore remoteURL ps)

/-- Specification-side best score over a whole signature list. -/
def bestConfigScore (remoteURL : String) : List SignatureConfig → Int
  | [] => -1
  | s :: ss => max (bestPatternScore remoteURL s.remotePatterns) (bestConfigScore remoteURL ss)

/-- The best pattern score is at least `-1`. -/
lemma neg_one_le_bestPatternScore (remoteURL : String) :
    ∀ ps : List String, -1 ≤ bestPatternScore remoteURL ps
  | [] => le_refl _
  | _ :: ps =>
    le_trans (neg_one_le_bestPatternScore remoteURL ps) (le_max_right _ _)

/-- The best config score is at least `-1`. -/
lemma neg_one_le_bestConfigScore (remoteURL : String) :
    ∀ ss : List SignatureConfig, -1 ≤ bestConfigScore remoteURL ss
  | [] => le_refl _
  | _ :: ss =>
    le_trans (neg_one_le_bestConfigScore remoteURL ss) (le_max_right _ _)

/-- Each signature's best score is bounded by the config-wide best score. -/
lemma bestPatternScore_le_bestConfigScore (remoteURL : String)
    (ss : List SignatureConfig) (s : SignatureConfig) (hs : s ∈ ss) :
    bestPatternScore remoteURL s.remotePatterns ≤ bestConfigScore remoteURL ss := by
  induction ss with
  | nil => cases hs
  | cons x xs ih =>
    simp only [bestConfigScore]
    rcases List.mem_cons.1 hs with rfl | hmem
    · exact le_max_left _ _
    · exact le_trans (ih hmem) (le_max_right _ _)

/-- The inner pattern loop of `MatchSignature`: starting from a running best,
it yields the candidate signature exactly when some pattern strictly beats
the running best, and the running score becomes the max of both. -/
lemma inner_foldl_eq (remoteURL : String) (s : SignatureConfig) :
    ∀ (ps : List String) (b : Option SignatureConfig × Int), -1 ≤ b.2 →
    ps.foldl (fun best pattern =>
        let score := MatchRemotePattern pattern remoteURL
        if score > best.2 then (some s, score) else best) b
      = (if bestPatternScore remoteURL ps > b.2 then some s else b.1,
         max b.2 (bestPatternScore remoteURL ps)) := by
  intro ps
  induction ps with
  | nil =>
    intro b hb
    simp only [List.foldl_nil, bestPatternScore]
    rw [if_neg (by omega), max_eq_left (by omega)]
  | cons p ps ih =>
    intro b hb
    simp only [List.foldl_cons, bestPatternScore]
    by_cases hgt : MatchRemotePattern p remoteURL > b.2
    · rw [if_pos hgt,
        ih (some s, MatchRemotePattern p remoteURL) (neg_one_le_matchRemotePattern p remoteURL)]
      have hle : b.2 ≤ max (MatchRemotePattern p remoteURL) (bestPatternScore remoteURL ps) :=
        le_of_lt (lt_of_lt_of_le hgt (le_max_left _ _))
      congr 1
      · rw [ite_self, if_pos (lt_of_lt_of_le hgt (le_max_left _ _))]
      · exact (max_eq_right hle).symm
    · rw [if_neg hgt, ih b hb]
      have hple : MatchRemotePattern p remoteURL ≤ b.2 := not_lt.1 hgt
      have hcond : (bestPatternScore remoteURL ps > b.2)
          ↔ (max (MatchRemotePattern p remoteURL) (bestPatternScore remoteURL ps) > b.2) := by
        constructor
        · intro h
          exact lt_of_lt_of_le h (le_max_right _ _)
        · intro h
          rcases lt_max_iff.1 h with h1 | h1
          · exact absurd h1 hgt
          · exact h1
      congr 1
      · exact if_congr hcond rfl rfl
      · rw [← max_assoc, max_eq_left hple]

/-- The outer signature loop of `MatchSignature`: starting from a running
best, it returns the first signature whose best pattern score equals the
config-wide best, whenever that best strictly beats the starting score. -/
lemma outer_foldl_eq (remoteURL : String) :
    ∀ (ss : List SignatureConfig) (b : Option SignatureConfig × Int), -1 ≤ b.2 →
    ss.foldl (fun best signature =>
        signature.remotePatterns.foldl (fun best pattern =>
            let score := MatchRemotePattern pattern remoteURL
            if score > best.2 then (some signature, score) else best) best) b
      = (if bestConfigScore remoteURL ss > b.2
           then ss.find? fun s =>
             decide (bestPatternScore remoteURL s.remotePatterns = bestConfigScore remoteURL ss)
           else b.1,
         max b.2 (bestConfigScore remoteURL ss)) := by
  intro ss
  induction ss with
  | nil =>
    intro b hb
    simp only [List.foldl_nil, bestConfigScore]
    rw [if_neg (by omega), max_eq_left (by omega)]
  | cons s ss ih =>
    intro b hb
    simp only [List.foldl_cons, bestConfigScore]
    rw [inner_foldl_eq remoteURL s s.remotePatterns b hb]
    rw [ih (if bestPatternScore remoteURL s.remotePatterns > b.2 then some s else b.1,
          max b.2 (bestPatternScore remoteURL s.remotePatterns))
        (le_trans hb (le_max_left _ _))]
    dsimp only
    by_cases hA : bestConfigScore remoteURL ss
        > max b.2 (bestPatternScore remoteURL s.remotePatterns)
    · have hb2 : b.2 < bestConfigScore remoteURL ss :=
        lt_of_le_of_lt (le_max_left _ _) hA
      have hb0 : bestPatternScore remoteURL s.remotePatterns < bestConfigScore remoteURL ss :=
        lt_of_le_of_lt (le_max_right _ _) hA
      have hmax : max (bestPatternScore remoteURL s.remotePatterns)
          (bestConfigScore remoteURL ss) = bestConfigScore remoteURL ss :=
        max_eq_right (le_of_lt hb0)
      rw [if_pos hA]
      simp only [hmax]
      rw [if_pos hb2,
        List.find?_cons_of_neg _ (by simp only [decide_eq_true_eq]; exact ne_of_lt hb0)]
      congr 1
      rw [max_assoc, hmax]
    · rw [if_neg hA]
      have hTle : bestConfigScore remoteURL ss
          ≤ max b.2 (bestPatternScore remoteURL s.remotePatterns) := not_lt.1 hA
      by_cases hb0 : bestPatternScore remoteURL s.remotePatterns > b.2
      · have hmaxb : max b.2 (bestPatternScore remoteURL s.remotePatterns)
            = bestPatternScore remoteURL s.remotePatterns := max_eq_right (le_of_lt hb0)
        have hTle2 : bestConfigScore remoteURL ss
            ≤ bestPatternScore remoteURL s.remotePatterns := hmaxb ▸ hTle
        have hmax : max (bestPatternScore remoteURL s.remotePatterns)
            (bestConfigScore remoteURL ss) = bestPatternScore remoteURL s.remotePatterns :=
          max_eq_left hTle2
        rw [if_pos hb0]
        simp only [hmax]
        rw [if_pos hb0,
          List.find?_cons_of_pos _ (by simp only [decide_eq_true_eq])]
        congr 1
        rw [hmaxb, hmax]
      · have hble : bestPatternScore remoteURL s.remotePatterns ≤ b.2 := not_lt.1 hb0
        have hmaxb : max b.2 (bestPatternScore remoteURL s.remotePatterns) = b.2 :=
          max_eq_left hble
        have hTle2 : bestConfigScore remoteURL ss ≤ b.2 := hmaxb ▸ hTle
        have hmaxle : max (bestPatternScore remoteURL s.remotePatterns)
            (bestConfigScore remoteURL ss) ≤ b.2 := max_le hble hTle2
        rw [if_neg hb0, if_neg (not_lt.2 hmaxle)]
        congr 1
        exact max_assoc _ _ _

/-- The resolver equals: none when nothing scores above `-1`, otherwise
the first signature in list order whose best pattern score attains the
config-wide best score. -/
lemma matchSignature_eq_find (config : CommitConfig) (remoteURL : String) :
    MatchSignature config remoteURL =
      if bestConfigScore remoteURL config.signatures > -1 then
        config.signatures.find? fun s =>
          decide (bestPatternScore remoteURL s.remotePatterns
            = bestConfigScore remoteURL config.signatures)
      else none := by
  unfold MatchSignature
  rw [outer_foldl_eq remoteURL config.signatures (none, -1) (le_refl _)]

/-- When every pattern of every signature fails, each per-signature best
score is `-1`. -/
lemma bestPatternScore_eq_neg_one {remoteURL : String} {ps : List String}
    (h : ∀ p ∈ ps, MatchRemotePattern p remoteURL = -1) :
    bestPatternScore remoteURL ps = -1 := by
  induction ps with
  | nil => rfl
  | cons p ps ih =>
    simp only [bestPatternScore]
    rw [h p (List.mem_cons_self p ps), ih fun q hq => h q (List.mem_cons_of_mem p hq)]
    simp

/-- When every pattern of every signature fails, the config-wide best score
is `-1`. -/
lemma bestConfigScore_eq_neg_one {remoteURL : String} {ss : List SignatureConfig}
    (h : ∀ s ∈ ss, ∀ p ∈ s.remotePatterns, MatchRemotePattern p remoteURL = -1) :
    bestConfigScore remoteURL ss = -1 := by
  induction ss with
  | nil => rfl
  | cons s ss ih =>
    simp only [bestConfigScore]
    rw [bestPatternScore_eq_neg_one (h s (List.mem_cons_self s ss)),
      ih fun t ht => h t (List.mem_cons_of_mem s ht)]
    simp

/-- C2: the resolver updates the running best only on a strictly greater
score, so it returns exactly the first signature in iteration order whose
best pattern score attains the config-wide best score (`bestConfigScore` is
an upper bound of every signature's best pattern score), and none when
nothing scores above the initial `-1`. -/
theorem matchSignature_order_stable (config : CommitConfig) (remoteURL : String) :
    (∀ s ∈ config.signatures,
        bestPatternScore remoteURL s.remotePatterns
          ≤ bestConfigScore remoteURL config.signatures) ∧
    MatchSignature config remoteURL =
      (if bestConfigScore remoteURL config.signatures > -1 then
        config.signatures.find? fun s =>
          decide (bestPatternScore remoteURL s.remotePatterns
            = bestConfigScore remoteURL config.signatures)
      else none) :=
  ⟨fun s hs => bestPatternScore_le_bestConfigScore remoteURL config.signatures s hs,
   matchSignature_eq_find config remoteURL⟩

theorem matchSignature_order_stable_witness :
    MatchSignature
        ⟨[⟨"first", "u1", "m1", "e1", ["git@github.com:*"]⟩,
          ⟨"second", "u2", "m2", "e2", ["git@github.com:*"]⟩]⟩
        "git@github.com:user/repo.git"
      = some ⟨"first", "u1", "m1", "e1", ["git@github.com:*"]⟩ := by
  have h := (matchSignature_order_stable
    ⟨[⟨"first", "u1", "m1", "e1", ["git@github.com:*"]⟩,
      ⟨"second", "u2", "m2", "e2", ["git@github.com:*"]⟩]⟩
    "git@github.com:user/repo.git").2
  rw [h]
  decide

/-- C7: the resolver returns none, not an error, whenever the signature list
is empty or no pattern of any signature matches the URL. -/
theorem matchSignature_none_of_no_match (config : CommitConfig) (remoteURL : String)
    (h : ∀ s ∈ config.signatures, ∀ p ∈ s.remotePatterns,
        MatchRemotePattern p remoteURL = -1) :
    MatchSignature config remoteURL = none := by
  rw [matchSignature_eq_find]
  rw [bestConfigScore_eq_neg_one h]
  simp

theorem matchSignature_none_of_no_match_witness :
    MatchSignature ⟨[]⟩ "git@github.com:user/repo.git" = none ∧
    MatchSignature ⟨[⟨"work", "u", "m", "e", ["git@gitlab.com:*"]⟩]⟩
        "git@github.com:user/repo.git" = none := by
  constructor
  · exact matchSignature_none_of_no_match ⟨[]⟩ "git@github.com:user/repo.git" (by simp)
  · exact matchSignature_none_of_no_match _ _ (by decide)

/-- C10: a signature whose pattern list is empty is never the resolver's
result, and when every signature's pattern list is empty the result is none. -/
theorem matchSignature_skips_empty_patterns (config : CommitConfig) (remoteURL : String) :
    (∀ s : SignatureConfig, MatchSignature config remoteURL = some s →
        s.remotePatterns ≠ []) ∧
    ((∀ s ∈ config.signatures, s.remotePatterns = []) →
        MatchSignature config remoteURL = none) := by
  constructor
  · intro s hs hempty
    rw [matchSignature_eq_find] at hs
    by_cases hc : bestConfigScore remoteURL config.signatures > -1
    · rw [if_pos hc] at hs
      have hpred := List.find?_some hs
      have heq : bestPatternScore remoteURL s.remotePatterns
          = bestConfigScore remoteURL config.signatures := by
        simpa using hpred
      rw [hempty] at heq
      have : bestPatternScore remoteURL ([] : List String) = -1 := rfl
      rw [this] at heq
      rw [← heq] at hc
      exact lt_irrefl _ hc
    · rw [if_neg hc] at hs
      exact Option.noConfusion hs
  · intro hall
    rw [matchSignature_eq_find]
    have hbcs : bestConfigScore remoteURL config.signatures = -1 :=
      bestConfigScore_eq_neg_one fun s hs p hp =>
        absurd (hall s hs ▸ hp) (List.not_mem_nil p)
    rw [hbcs]
    simp

theorem matchSignature_skips_empty_patterns_witness :
    (⟨"n", "u", "m", "e", ["*"]⟩ : SignatureConfig).remotePatterns ≠ [] ∧
    MatchSignature ⟨[⟨"n", "u", "m", "e", []⟩]⟩ "git@github.com:user/repo.git" = none := by
  constructor
  · exact (matchSignature_skips_empty_patterns
      ⟨[⟨"n", "u", "m", "e", ["*"]⟩]⟩ "u").1 ⟨"n", "u", "m", "e", ["*"]⟩ (by rfl)
  · exact (matchSignature_skips_empty_patterns _ _).2 (by simp)

end GoCommit
